import Mathlib

/-!
Verification of the kodos incremental build orchestrator (constabulary/kodos).

This file gives a shallow embedding of the core of the repository:
the build `Context`, the `Package` metadata, staleness analysis
(`IsStale`, `computeStale`), graph construction (`transform`), the
compilation pipeline (`Compile`), the atomic link step (`Link`) and the
memoized build-action orchestration (`buildPackage` / `buildPackages`),
and proves or refutes the specification's claims about them.

Modelling conventions:
* modification times are natural numbers; the Go zero `time.Time` is `0`;
* the filesystem is an oracle `Stat : String → Option MTime` (a failing
  `os.Stat` is `none`);
* paths are joined with `/` (the target platform of the source is linux,
  where `filepath.FromSlash` is the identity and `filepath.Join` of clean
  components is string concatenation with a separator);
* Go pointer identity of `*Package` nodes is represented by the import
  path, which is sound because graph construction materializes exactly
  one node per import path per invocation (the `seen` memo table).
-/

namespace Kodos

/-- Modification times; the Go zero `time.Time` is modelled as `0`. -/
abbrev MTime := Nat

/-- Stat oracle: maps a path to its modification time, `none` when
`os.Stat` fails (file missing, permission error, ...). -/
abbrev Stat := String → Option MTime

/-- `filepath.Join` of two clean components on linux. -/
def joinPath (a b : String) : String := a ++ "/" ++ b

/-- Last slash-separated component of a character list, accumulating
the current component. -/
def baseNameAux : List Char → List Char → List Char
  | [], acc => acc
  | ch :: rest, acc =>
    if ch = '/' then baseNameAux rest [] else baseNameAux rest (acc ++ [ch])

/-- `filepath.Base` of a slash-separated path (last component; import
paths are nonempty and carry no trailing slash). -/
def baseName (p : String) : String := String.mk (baseNameAux p.data [])

/-- Build-specific values: the `Context` struct of the source.
`envGOOS`/`envGOARCH` model `os.Getenv "GOOS"`/`os.Getenv "GOARCH"`
(empty string when unset) and `gorootDir` models `runtime.GOROOT()`. -/
structure Ctx where
  goos : String
  goarch : String
  workdir : String
  pkgdir : String
  bindir : String
  force : Bool
  race : Bool
  gcflags : List String := []
  ldflags : List String := []
  buildtags : List String := []
  envGOOS : String := ""
  envGOARCH : String := ""
  gorootDir : String := "/goroot"
deriving DecidableEq

/-- `Context.isCrossCompile` always reports `false` in the source. -/
def Ctx.isCrossCompile (_ : Ctx) : Bool := false

/-- `Context.ctxString`: platform pair plus build tags, dash-joined. -/
def Ctx.ctxString (c : Ctx) : String :=
  String.intercalate "-" ([c.goos, c.goarch] ++ c.buildtags)

/-- `Context.searchPaths`: the work directory then the package cache. -/
def Ctx.searchPaths (c : Ctx) : List String := [c.workdir, c.pkgdir]

/-- The per-package fields of the `Package` struct (the embedded
`build.Package` data plus the kodos-specific flags).  The `Imports`
edge is kept separately (see `GPkg`) because staleness only consults a
dependency's import path. -/
structure PkgMeta where
  importPath : String
  dir : String
  goFiles : List String
  sFiles : List String := []
  main : Bool := false
  testScope : Bool := false
deriving DecidableEq

/-- `Package.pkgpath`: where a previously cached object for this import
path is found.  `isCrossCompile` is always false, so the race branch is
the only deviation from `Pkgdir`. -/
def pkgpath (c : Ctx) (importPath : String) : String :=
  if c.race then
    joinPath (joinPath (joinPath c.gorootDir "pkg")
      (c.goos ++ "_" ++ c.goarch ++ "_race")) (importPath ++ ".a")
  else
    joinPath c.pkgdir (importPath ++ ".a")

/-- `Package.binname`.  The source panics for a non-main, non-test
package; `Binfile` (its only caller inside the modelled code) is only
consulted for main packages, so the default branch returns the main
case here. -/
def binname (pkg : PkgMeta) : String :=
  if pkg.testScope then pkg.importPath ++ ".test"
  else baseName pkg.importPath

/-- `Package.Binfile`: destination of the linked binary. -/
def Binfile (c : Ctx) (pkg : PkgMeta) : String :=
  let target :=
    if pkg.testScope then
      joinPath (joinPath (joinPath c.workdir pkg.importPath) "_test") (binname pkg)
    else joinPath c.bindir (binname pkg)
  let target :=
    if c.isCrossCompile || (!c.envGOOS.isEmpty && !c.envGOARCH.isEmpty) then
      target ++ "-" ++ c.ctxString
    else if !c.buildtags.isEmpty then
      target ++ "-" ++ String.intercalate "-" c.buildtags
    else target
  if c.goos = "windows" then target ++ ".exe" else target

/-- `Package.files`: all source files in scope (`stringList(p.GoFiles)`). -/
def files (pkg : PkgMeta) : List String := pkg.goFiles

/-- The `olderThan` closure of `IsStale`: the stat of `file` failed, or
the modification time of `file` is strictly after `built`
(`fi.ModTime().After(built)`). -/
def olderThan (stat : Stat) (built : MTime) (file : String) : Bool :=
  match stat file with
  | none => true
  | some t => decide (built < t)

/-- The `newerThan` closure of `IsStale`: the stat of `file` failed, or
the modification time of `file` is strictly before `built`
(`fi.ModTime().Before(built)`). -/
def newerThan (stat : Stat) (built : MTime) (file : String) : Bool :=
  match stat file with
  | none => true
  | some t => decide (t < built)

/-- `Package.IsStale`.  `imports` is the list of import paths of the
package's direct dependencies (all that a dependency contributes here).
`built` is the Go zero time (`0`) unless the cached artifact stats
successfully. -/
def IsStale (c : Ctx) (stat : Stat) (pkg : PkgMeta) (imports : List String) : Bool :=
  if pkg.importPath = "C" ∨ pkg.importPath = "unsafe" then
    false
  else if c.force then
    true
  else if pkg.testScope then
    true
  else
    let built : MTime := (stat (pkgpath c pkg.importPath)).getD 0
    if built = 0 then
      true
    else
      if imports.any (fun p =>
          !(p == "C" || p == "unsafe") && olderThan stat built (pkgpath c p)) then
        true
      else if pkg.main && newerThan stat built (Binfile c pkg) then
        true
      else if (files pkg).any (fun src => olderThan stat built (joinPath pkg.dir src)) then
        true
      else
        false

/-- Under the hypotheses that rule out the early returns, `IsStale` is
the disjunction of the dependency check, the binary check and the
own-source check. -/
theorem IsStale_eq_checks (c : Ctx) (stat : Stat) (pkg : PkgMeta)
    (imports : List String) (b : MTime)
    (hsyn : ¬(pkg.importPath = "C" ∨ pkg.importPath = "unsafe"))
    (hforce : c.force = false) (htest : pkg.testScope = false)
    (hstat : stat (pkgpath c pkg.importPath) = some b) (hb : b ≠ 0) :
    IsStale c stat pkg imports =
      (imports.any (fun p =>
          !(p == "C" || p == "unsafe") && olderThan stat b (pkgpath c p))
        || (pkg.main && newerThan stat b (Binfile c pkg))
        || (files pkg).any (fun src => olderThan stat b (joinPath pkg.dir src))) := by
  unfold IsStale
  rw [if_neg hsyn, hstat]
  simp only [hforce, htest, Option.getD_some, Bool.false_eq_true, if_false, hb, if_neg hb,
    Bool.if_true_left, Bool.if_false_right, Bool.or_assoc, Bool.and_true, Bool.decide_eq_true]

/-- A concrete build context used by witnesses and counterexamples. -/
def ctx0 : Ctx :=
  { goos := "linux", goarch := "amd64", workdir := "/w", pkgdir := "/p",
    bindir := "/b", force := false, race := false }

/-- The concrete context with the force-rebuild flag set. -/
def ctxForce : Ctx := { ctx0 with force := true }

/-- A stat oracle where every stat fails. -/
def statNone : Stat := fun _ => none

/-- The synthetic package "C". -/
def pkgC : PkgMeta := { importPath := "C", dir := "", goFiles := [] }

/-- A concrete library package with a single Go source file. -/
def pkgA : PkgMeta := { importPath := "a", dir := "/s/a", goFiles := ["a.go"] }

/-- C8: for a synthetic unit (Identity "C" or "unsafe") `IsStale` returns
`false` unconditionally: the synthetic check is the first test in the
function, so it takes priority over the force-rebuild rule (and every
other rule). -/
theorem C8_synthetic_never_stale (c : Ctx) (stat : Stat) (pkg : PkgMeta)
    (imports : List String)
    (h : pkg.importPath = "C" ∨ pkg.importPath = "unsafe") :
    IsStale c stat pkg imports = false := by
  unfold IsStale
  rw [if_pos h]

/-- Witness for C8: the synthetic package "C" is not stale even with the
force-rebuild flag set. -/
theorem C8_synthetic_never_stale_witness :
    ctxForce.force = true ∧ IsStale ctxForce statNone pkgC [] = false :=
  ⟨rfl, C8_synthetic_never_stale ctxForce statNone pkgC [] (Or.inl rfl)⟩

/-- Stat oracle for the C4 counterexample: the cached artifact and the
source file carry the same modification time. -/
def stat4 : Stat := fun p =>
  if p = "/p/a.a" then some 5
  else if p = "/s/a/a.go" then some 5
  else none

/-- Counterexample to C4 as stated: package `a` is non-synthetic,
non-forced, non-test, its cached artifact exists, and its only source
file has a modification time equal to the artifact's modification time,
yet `IsStale` returns `false` — the source uses the strict
`ModTime().After(built)`, so a tie does not make the package stale. -/
theorem C4_counterexample :
    pkgA.importPath ≠ "C" ∧ pkgA.importPath ≠ "unsafe" ∧
    ctx0.force = false ∧ pkgA.testScope = false ∧
    stat4 (pkgpath ctx0 pkgA.importPath) = some 5 ∧
    "a.go" ∈ pkgA.goFiles ∧
    stat4 (joinPath pkgA.dir "a.go") = some 5 ∧
    IsStale ctx0 stat4 pkgA [] = false := by
  decide

/-- C4 amended: for every non-synthetic, non-forced, non-test package
whose cached artifact exists, if one of the unit's own declared source
files has a modification time strictly after the cached artifact's
modification time, `IsStale` returns `true`. -/
theorem C4_source_newer_stale (c : Ctx) (stat : Stat) (pkg : PkgMeta)
    (imports : List String) (b t : MTime) (src : String)
    (hsyn : ¬(pkg.importPath = "C" ∨ pkg.importPath = "unsafe"))
    (hforce : c.force = false) (htest : pkg.testScope = false)
    (hstat : stat (pkgpath c pkg.importPath) = some b) (hb : b ≠ 0)
    (hsrc : src ∈ pkg.goFiles)
    (ht : stat (joinPath pkg.dir src) = some t) (hlt : b < t) :
    IsStale c stat pkg imports = true := by
  rw [IsStale_eq_checks c stat pkg imports b hsyn hforce htest hstat hb]
  have hany : (files pkg).any (fun s => olderThan stat b (joinPath pkg.dir s)) = true := by
    rw [List.any_eq_true]
    refine ⟨src, hsrc, ?_⟩
    simp [olderThan, ht, hlt]
  simp only [hany, Bool.or_true]

/-- Stat oracle for the C4 witness: the source file is strictly newer
than the cached artifact. -/
def stat4b : Stat := fun p =>
  if p = "/p/a.a" then some 5
  else if p = "/s/a/a.go" then some 7
  else none

/-- Witness for the amended C4 at a concrete input. -/
theorem C4_source_newer_stale_witness : IsStale ctx0 stat4b pkgA [] = true :=
  C4_source_newer_stale ctx0 stat4b pkgA [] 5 7 "a.go" (by decide) rfl rfl
    (by decide) (by decide) (by decide) (by decide) (by decide)

/-- C10: for every non-synthetic, non-forced, non-test package whose own
cached artifact exists, a failing stat of a non-synthetic dependency's
cached artifact or of one of the package's own source files makes
`IsStale` return `true` (the `olderThan` helper treats a stat error as
"newer"). -/
theorem C10_stat_failure_stale (c : Ctx) (stat : Stat) (pkg : PkgMeta)
    (imports : List String) (b : MTime)
    (hsyn : ¬(pkg.importPath = "C" ∨ pkg.importPath = "unsafe"))
    (hforce : c.force = false) (htest : pkg.testScope = false)
    (hstat : stat (pkgpath c pkg.importPath) = some b) (hb : b ≠ 0)
    (h : (∃ p ∈ imports, ¬(p = "C" ∨ p = "unsafe") ∧ stat (pkgpath c p) = none)
       ∨ (∃ src ∈ pkg.goFiles, stat (joinPath pkg.dir src) = none)) :
    IsStale c stat pkg imports = true := by
  rw [IsStale_eq_checks c stat pkg imports b hsyn hforce htest hstat hb]
  rcases h with ⟨p, hp, hns, hnone⟩ | ⟨src, hsrc, hnone⟩
  · have h1 : p ≠ "C" := fun hh => hns (Or.inl hh)
    have h2 : p ≠ "unsafe" := fun hh => hns (Or.inr hh)
    have hany : imports.any (fun q =>
        !(q == "C" || q == "unsafe") && olderThan stat b (pkgpath c q)) = true := by
      rw [List.any_eq_true]
      refine ⟨p, hp, ?_⟩
      simp [olderThan, hnone, h1, h2]
    simp only [hany, Bool.true_or]
  · have hany : (files pkg).any (fun s => olderThan stat b (joinPath pkg.dir s)) = true := by
      rw [List.any_eq_true]
      refine ⟨src, hsrc, ?_⟩
      simp [olderThan, hnone]
    simp only [hany, Bool.or_true]

/-- Stat oracle for the C10 witness: package `a`'s artifact exists but
the dependency `d`'s cached artifact is missing. -/
def stat10 : Stat := fun p =>
  if p = "/p/a.a" then some 5
  else if p = "/s/a/a.go" then some 3
  else none

/-- Witness for C10 at a concrete input: the dependency's artifact
fails to stat, so `a` is stale. -/
theorem C10_stat_failure_stale_witness : IsStale ctx0 stat10 pkgA ["d"] = true :=
  C10_stat_failure_stale ctx0 stat10 pkgA ["d"] 5 (by decide) rfl rfl (by decide)
    (by decide) (Or.inl ⟨"d", by decide, by decide, by decide⟩)

/-- A graph node: a `Package` value with its `Imports` edge.  Go shares
nodes by pointer; the graph builder materializes exactly one node
per import path, so pointer identity is represented by the field
`PkgMeta.importPath` (see `Coherent` below for where this is assumed). -/
inductive GPkg where
  | node (meta : PkgMeta) (imports : List GPkg)

mutual

/-- Decidable equality on graph nodes (the nested `List` blocks the
automatic derivation). -/
def GPkg.decEq (p q : GPkg) : Decidable (p = q) :=
  match p, q with
  | .node m1 l1, .node m2 l2 =>
    match (inferInstance : DecidableEq PkgMeta) m1 m2, GPkg.decEqList l1 l2 with
    | isTrue h1, isTrue h2 => isTrue (by rw [h1, h2])
    | isFalse h1, _ => isFalse (by intro hh; cases hh; exact h1 rfl)
    | _, isFalse h2 => isFalse (by intro hh; cases hh; exact h2 rfl)

/-- Decidable equality on lists of graph nodes. -/
def GPkg.decEqList (l1 l2 : List GPkg) : Decidable (l1 = l2) :=
  match l1, l2 with
  | [], [] => isTrue rfl
  | [], _ :: _ => isFalse (by intro hh; cases hh)
  | _ :: _, [] => isFalse (by intro hh; cases hh)
  | a :: as, b :: bs =>
    match GPkg.decEq a b, GPkg.decEqList as bs with
    | isTrue h1, isTrue h2 => isTrue (by rw [h1, h2])
    | isFalse h1, _ => isFalse (by intro hh; cases hh; exact h1 rfl)
    | _, isFalse h2 => isFalse (by intro hh; cases hh; exact h2 rfl)

end

instance : DecidableEq GPkg := GPkg.decEq

/-- The wrapped metadata of a node. -/
def GPkg.meta : GPkg → PkgMeta
  | .node m _ => m

/-- The direct dependencies of a node. -/
def GPkg.imports : GPkg → List GPkg
  | .node _ l => l

/-- The identity (import path) of a node. -/
def GPkg.ident (p : GPkg) : String := p.meta.importPath

/-- The memoization state of `computeStale`: which nodes (by identity)
have been visited (`seen`), and which carry `NotStale = true`
(`notStale`).  `NotStale` starts at the Go zero value `false`, so the
set representation records exactly the `true` flags. -/
structure CSState where
  seen : List String
  notStale : List String
deriving DecidableEq

mutual

/-- The recursive `walk` closure of `computeStale`: if the node was
seen, return its recorded `NotStale`; otherwise mark it seen, walk the
dependencies left to right returning `false` as soon as one walk does
(the remaining siblings are not walked and this node's flag is not
written), and otherwise compute `IsStale` and record the verdict. -/
def csWalk (c : Ctx) (stat : Stat) : GPkg → CSState → Bool × CSState
  | .node m imps, s =>
    if m.importPath ∈ s.seen then
      (decide (m.importPath ∈ s.notStale), s)
    else
      match csWalkDeps c stat imps ⟨m.importPath :: s.seen, s.notStale⟩ with
      | (false, s2) => (false, s2)
      | (true, s2) =>
        if IsStale c stat m (imps.map GPkg.ident) then (false, s2)
        else (true, ⟨s2.seen, m.importPath :: s2.notStale⟩)

/-- The dependency loop of `walk`: walk each dependency in order,
stopping at the first stale one. -/
def csWalkDeps (c : Ctx) (stat : Stat) : List GPkg → CSState → Bool × CSState
  | [], s => (true, s)
  | p :: ps, s =>
    match csWalk c stat p s with
    | (false, s1) => (false, s1)
    | (true, s1) => csWalkDeps c stat ps s1

end

/-- `computeStale`: walk each root in order against a shared state. -/
def computeStale (c : Ctx) (stat : Stat) : List GPkg → CSState → CSState
  | [], s => s
  | r :: rs, s => computeStale c stat rs (csWalk c stat r s).2

/-- Well-formedness of a walk state: no node is recorded as visited
twice, and a `NotStale` flag is only recorded for visited nodes. -/
def CSInv (s : CSState) : Prop :=
  s.seen.Nodup ∧ ∀ x ∈ s.notStale, x ∈ s.seen

mutual

/-- `csWalk` only grows `seen` and `notStale`, and preserves `CSInv`. -/
theorem csWalk_props (c : Ctx) (stat : Stat) (p : GPkg) (s : CSState) :
    s.seen ⊆ (csWalk c stat p s).2.seen ∧
    s.notStale ⊆ (csWalk c stat p s).2.notStale ∧
    (CSInv s → CSInv (csWalk c stat p s).2) := by
  cases p with
  | node m imps =>
    rw [csWalk]
    by_cases hm : m.importPath ∈ s.seen
    · rw [if_pos hm]
      exact ⟨List.Subset.refl _, List.Subset.refl _, fun h => h⟩
    · rw [if_neg hm]
      have hdeps := csWalkDeps_props c stat imps ⟨m.importPath :: s.seen, s.notStale⟩
      rcases hd : csWalkDeps c stat imps ⟨m.importPath :: s.seen, s.notStale⟩ with ⟨b2, s2⟩
      rw [hd] at hdeps
      have hseen : s.seen ⊆ s2.seen :=
        (List.subset_cons_self _ _).trans hdeps.1
      have hcons : m.importPath ∈ s2.seen := hdeps.1 (List.mem_cons_self _ _)
      have hns : s.notStale ⊆ s2.notStale := hdeps.2.1
      have hinv : CSInv s → CSInv s2 := fun hi =>
        hdeps.2.2 ⟨List.Nodup.cons hm hi.1, fun x hx => List.mem_cons_of_mem _ (hi.2 x hx)⟩
      cases b2 with
      | false => exact ⟨hseen, hns, hinv⟩
      | true =>
        by_cases hst : IsStale c stat m (imps.map GPkg.ident) = true
        · simp only [hst, if_true]
          exact ⟨hseen, hns, hinv⟩
        · simp only [Bool.not_eq_true] at hst
          simp only [hst, Bool.false_eq_true, if_false]
          refine ⟨hseen, hns.trans (List.subset_cons_self _ _), fun hi => ?_⟩
          refine ⟨(hinv hi).1, fun x hx => ?_⟩
          rcases List.mem_cons.mp hx with hx | hx
          · exact hx ▸ hcons
          · exact (hinv hi).2 x hx

/-- `csWalkDeps` only grows `seen` and `notStale`, and preserves
`CSInv`. -/
theorem csWalkDeps_props (c : Ctx) (stat : Stat) (l : List GPkg) (s : CSState) :
    s.seen ⊆ (csWalkDeps c stat l s).2.seen ∧
    s.notStale ⊆ (csWalkDeps c stat l s).2.notStale ∧
    (CSInv s → CSInv (csWalkDeps c stat l s).2) := by
  cases l with
  | nil =>
    rw [csWalkDeps]
    exact ⟨List.Subset.refl _, List.Subset.refl _, fun h => h⟩
  | cons p ps =>
    rw [csWalkDeps]
    have h1 := csWalk_props c stat p s
    rcases hw : csWalk c stat p s with ⟨b1, s1⟩
    rw [hw] at h1
    cases b1 with
    | false => exact ⟨h1.1, h1.2.1, h1.2.2⟩
    | true =>
      have h2 := csWalkDeps_props c stat ps s1
      exact ⟨h1.1.trans h2.1, h1.2.1.trans h2.2.1, fun hi => h2.2.2 (h1.2.2 hi)⟩

end

/-- Leaf node `b` for the staleness fixtures. -/
def bNode : GPkg := .node { importPath := "b", dir := "/s/b", goFiles := ["b.go"] } []

/-- Leaf node `c` for the staleness fixtures. -/
def cNode : GPkg := .node { importPath := "c", dir := "/s/c", goFiles := ["c.go"] } []

/-- Root node `r` depending on `b` then `c`. -/
def rNode : GPkg := .node { importPath := "r", dir := "/s/r", goFiles := ["r.go"] } [bNode, cNode]

/-- Counterexample to C3 as stated: with every artifact missing, the
dependency `b` of root `r` is found stale, the walk of `r` returns
early, and the sibling dependency `c` — reachable from the root — is
never visited (it is absent from `seen`), so not every reachable node
has its verdict computed. -/
theorem C3_counterexample :
    "c" ∈ (GPkg.imports rNode).map GPkg.ident ∧
    "c" ∉ (computeStale ctx0 statNone [rNode] ⟨[], []⟩).seen := by
  decide

/-- C3 amended: `computeStale` visits every node at most once (the
`seen` record stays duplicate-free) and a `NotStale` verdict is only
recorded for visited nodes; but a stale dependency makes the walk
return early, so sibling dependencies after it may never be visited and
keep the default stale verdict. -/
theorem C3_visited_at_most_once (c : Ctx) (stat : Stat) (roots : List GPkg) :
    ((computeStale c stat roots ⟨[], []⟩).seen).Nodup ∧
    ∀ x ∈ (computeStale c stat roots ⟨[], []⟩).notStale,
      x ∈ (computeStale c stat roots ⟨[], []⟩).seen := by
  have h : ∀ s, CSInv s → CSInv (computeStale c stat roots s) := by
    induction roots with
    | nil => exact fun s hs => hs
    | cons r rs ih =>
      intro s hs
      exact ih _ ((csWalk_props c stat r s).2.2 hs)
  exact h ⟨[], []⟩ ⟨List.nodup_nil, by simp⟩

/-- Fresh leaf `b` (cached artifact newer than its source). -/
def bF : GPkg := bNode

/-- Fresh root `a` depending on `b`. -/
def aF : GPkg := .node { importPath := "a", dir := "/s/a", goFiles := ["a.go"] } [bF]

/-- Stat oracle under which both `a` and `b` are fresh: both artifacts
exist at time 10 and both sources are older, at time 4. -/
def statF : Stat := fun p =>
  if p = "/p/b.a" then some 10
  else if p = "/s/b/b.go" then some 4
  else if p = "/p/a.a" then some 10
  else if p = "/s/a/a.go" then some 4
  else none

/-- Witness for the amended C3 at a concrete input. -/
theorem C3_visited_at_most_once_witness :
    ((computeStale ctx0 statF [aF] ⟨[], []⟩).seen).Nodup ∧
    "a" ∈ (computeStale ctx0 statF [aF] ⟨[], []⟩).seen :=
  ⟨(C3_visited_at_most_once ctx0 statF [aF]).1,
   (C3_visited_at_most_once ctx0 statF [aF]).2 "a" (by decide)⟩

mutual

/-- A node together with all nodes reachable from it. -/
def GPkg.descend : GPkg → List GPkg
  | .node m imps => .node m imps :: GPkg.descendList imps

/-- All nodes reachable from a list of nodes. -/
def GPkg.descendList : List GPkg → List GPkg
  | [] => []
  | p :: ps => GPkg.descend p ++ GPkg.descendList ps

end

/-- All nodes reachable from the given roots. -/
def allNodes (roots : List GPkg) : List GPkg := GPkg.descendList roots

/-- The sharing discipline of the graph builder: within one invocation
every import path names a unique node, so two nodes of the graph with
the same identity have the same dependency identities.  `transform`
establishes this via its `seen` memo table. -/
def Coherent (U : List GPkg) : Prop :=
  ∀ p ∈ U, ∀ q ∈ U, GPkg.ident p = GPkg.ident q →
    (GPkg.imports p).map GPkg.ident = (GPkg.imports q).map GPkg.ident

instance (U : List GPkg) : Decidable (Coherent U) := by
  unfold Coherent
  infer_instance

/-- If a walk reports a node fresh, that node's `NotStale` flag is
recorded in the resulting state. -/
theorem csWalk_true_mem (c : Ctx) (stat : Stat) (p : GPkg) (s s1 : CSState)
    (h : csWalk c stat p s = (true, s1)) : GPkg.ident p ∈ s1.notStale := by
  cases p with
  | node m imps =>
    rw [csWalk] at h
    by_cases hm : m.importPath ∈ s.seen
    · rw [if_pos hm] at h
      have h1 : decide (m.importPath ∈ s.notStale) = true := congrArg Prod.fst h
      have h2 : s = s1 := congrArg Prod.snd h
      exact h2 ▸ of_decide_eq_true h1
    · rw [if_neg hm] at h
      rcases hd : csWalkDeps c stat imps ⟨m.importPath :: s.seen, s.notStale⟩ with ⟨b2, s2⟩
      rw [hd] at h
      cases b2 with
      | false => exact absurd (congrArg Prod.fst h) (by simp)
      | true =>
        dsimp only at h
        by_cases hst : IsStale c stat m (imps.map GPkg.ident) = true
        · rw [if_pos hst] at h
          exact absurd (congrArg Prod.fst h) (by simp)
        · rw [if_neg hst] at h
          have h2 : (⟨s2.seen, m.importPath :: s2.notStale⟩ : CSState) = s1 :=
            congrArg Prod.snd h
          rw [← h2]
          exact List.mem_cons_self _ _

/-- If the dependency loop reports every dependency fresh, each
dependency's `NotStale` flag is in the resulting state. -/
theorem csWalkDeps_true_mem (c : Ctx) (stat : Stat) (l : List GPkg) (s s2 : CSState)
    (h : csWalkDeps c stat l s = (true, s2)) :
    ∀ d ∈ l, GPkg.ident d ∈ s2.notStale := by
  induction l generalizing s with
  | nil => intro d hd; cases hd
  | cons p ps ih =>
    rw [csWalkDeps] at h
    rcases hw : csWalk c stat p s with ⟨b1, s1⟩
    rw [hw] at h
    cases b1 with
    | false => exact absurd (congrArg Prod.fst h) (by simp)
    | true =>
      dsimp only at h
      intro d hd
      rcases List.mem_cons.mp hd with rfl | hd2
      · have hmem := csWalk_true_mem c stat d s s1 hw
        have hmono := (csWalkDeps_props c stat ps s1).2.1
        rw [h] at hmono
        exact hmono hmem
      · exact ih s1 h d hd2

/-- The invariant behind C9: every node of the universe `U` whose
`NotStale` flag is recorded has all its direct dependencies' flags
recorded. -/
def StaleDepInv (U : List GPkg) (s : CSState) : Prop :=
  ∀ n ∈ U, GPkg.ident n ∈ s.notStale →
    ∀ d ∈ GPkg.imports n, GPkg.ident d ∈ s.notStale

mutual

/-- `csWalk` preserves `StaleDepInv` for a coherent universe that
contains every node reachable from the walked node. -/
theorem csWalk_staleDepInv (c : Ctx) (stat : Stat) (U : List GPkg) (p : GPkg)
    (s : CSState) (hco : Coherent U) (hU : GPkg.descend p ⊆ U)
    (hs : StaleDepInv U s) : StaleDepInv U (csWalk c stat p s).2 := by
  cases p with
  | node m imps =>
    rw [csWalk]
    by_cases hm : m.importPath ∈ s.seen
    · rw [if_pos hm]; exact hs
    · rw [if_neg hm]
      have hUimps : GPkg.descendList imps ⊆ U := by
        intro x hx
        exact hU (by rw [GPkg.descend]; exact List.mem_cons_of_mem _ hx)
      have hs1 : StaleDepInv U ⟨m.importPath :: s.seen, s.notStale⟩ := hs
      rcases hd : csWalkDeps c stat imps ⟨m.importPath :: s.seen, s.notStale⟩ with ⟨b2, s2⟩
      have hs2 : StaleDepInv U s2 := by
        have hh := csWalkDeps_staleDepInv c stat U imps
          ⟨m.importPath :: s.seen, s.notStale⟩ hco hUimps hs1
        rw [hd] at hh
        exact hh
      cases b2 with
      | false => exact hs2
      | true =>
        dsimp only
        by_cases hst : IsStale c stat m (imps.map GPkg.ident) = true
        · rw [if_pos hst]; exact hs2
        · rw [if_neg hst]
          intro n hn hni d hdn
          rcases List.mem_cons.mp hni with heq | hmem
          · have hself : GPkg.node m imps ∈ U :=
              hU (by rw [GPkg.descend]; exact List.mem_cons_self _ _)
            have hids := hco n hn (GPkg.node m imps) hself heq
            have hdid : GPkg.ident d ∈ (GPkg.imports n).map GPkg.ident :=
              List.mem_map_of_mem _ hdn
            rw [hids] at hdid
            rcases List.mem_map.mp hdid with ⟨e, he, heid⟩
            have hmem2 := csWalkDeps_true_mem c stat imps
              ⟨m.importPath :: s.seen, s.notStale⟩ s2 hd e he
            exact List.mem_cons_of_mem _ (heid ▸ hmem2)
          · exact List.mem_cons_of_mem _ (hs2 n hn hmem d hdn)

/-- The dependency loop preserves `StaleDepInv` likewise. -/
theorem csWalkDeps_staleDepInv (c : Ctx) (stat : Stat) (U : List GPkg)
    (l : List GPkg) (s : CSState) (hco : Coherent U)
    (hU : GPkg.descendList l ⊆ U) (hs : StaleDepInv U s) :
    StaleDepInv U (csWalkDeps c stat l s).2 := by
  cases l with
  | nil => rw [csWalkDeps]; exact hs
  | cons p ps =>
    rw [csWalkDeps]
    have hUp : GPkg.descend p ⊆ U := by
      intro x hx
      exact hU (by rw [GPkg.descendList]; exact List.mem_append_left _ hx)
    have hUps : GPkg.descendList ps ⊆ U := by
      intro x hx
      exact hU (by rw [GPkg.descendList]; exact List.mem_append_right _ hx)
    have h1 := csWalk_staleDepInv c stat U p s hco hUp hs
    rcases hw : csWalk c stat p s with ⟨b1, s1⟩
    rw [hw] at h1
    cases b1 with
    | false => exact h1
    | true => exact csWalkDeps_staleDepInv c stat U ps s1 hco hUps h1

end

/-- The reachable closure of a member of a list is inside the reachable
closure of the list. -/
theorem descend_subset_descendList (r : GPkg) (rs : List GPkg) (hr : r ∈ rs) :
    GPkg.descend r ⊆ GPkg.descendList rs := by
  induction rs with
  | nil => cases hr
  | cons p ps ih =>
    rw [GPkg.descendList]
    rcases List.mem_cons.mp hr with rfl | hr2
    · exact List.subset_append_left _ _
    · exact (ih hr2).trans (List.subset_append_right _ _)

/-- C9: after `computeStale` runs from the empty state on the roots of
a coherent graph, every reachable node marked `NotStale` has all of its
direct dependencies marked `NotStale` as well (so by induction the
property extends to all transitive dependencies, which is what makes
the orchestrator's skip-fresh-subtree shortcut sound). -/
theorem C9_notStale_closed (c : Ctx) (stat : Stat) (roots : List GPkg)
    (hco : Coherent (allNodes roots)) :
    ∀ n ∈ allNodes roots,
      GPkg.ident n ∈ (computeStale c stat roots ⟨[], []⟩).notStale →
      ∀ d ∈ GPkg.imports n,
        GPkg.ident d ∈ (computeStale c stat roots ⟨[], []⟩).notStale := by
  have key : ∀ (rs : List GPkg), (∀ r ∈ rs, GPkg.descend r ⊆ allNodes roots) →
      ∀ s, StaleDepInv (allNodes roots) s →
        StaleDepInv (allNodes roots) (computeStale c stat rs s) := by
    intro rs
    induction rs with
    | nil => intro _ s hs; exact hs
    | cons r rs2 ih =>
      intro hsub s hs
      rw [computeStale]
      exact ih (fun x hx => hsub x (List.mem_cons_of_mem _ hx)) _
        (csWalk_staleDepInv c stat _ r s hco (hsub r (List.mem_cons_self _ _)) hs)
  exact key roots (fun r hr => descend_subset_descendList r roots hr) ⟨[], []⟩
    (fun n _ hmem => absurd hmem (List.not_mem_nil _))

/-- Witness for C9 at a concrete input: `a` is marked `NotStale`, so
its dependency `b` must be as well. -/
theorem C9_notStale_closed_witness :
    "b" ∈ (computeStale ctx0 statF [aF] ⟨[], []⟩).notStale :=
  C9_notStale_closed ctx0 statF [aF] (by decide) aF (by decide) (by decide)
    bF (by decide)

/-- A memoized build action (the `func() error` closures of
`buildPackage`): either the trivial "already up to date" report for a
fresh package, or the closure that runs its dependency actions in
order, then this unit's Compilation Pipeline, then — for a main
package — the link step.  Go shares closures through the `targets`
table; invoking a shared closure from a second dependent re-runs it,
which the `Action` tree reflects by the shared subterm occurring once
per invocation site. -/
inductive Action where
  | upToDate (id : String)
  | run (id : String) (deps : List Action) (main : Bool)

/-- The `targets` memo table, keyed by import path. -/
abbrev Targets := List (String × Action)

mutual

/-- `buildPackage`: return the memoized action if one exists, a
trivial action for a fresh package (not registered, exactly as in the
source), and otherwise build the dependency actions, assemble this
package's action and register it. -/
def buildPackage (ns : List String) (ts : Targets) : GPkg → Action × Targets
  | .node m imps =>
    match ts.lookup m.importPath with
    | some a => (a, ts)
    | none =>
      if m.importPath ∈ ns then (Action.upToDate m.importPath, ts)
      else
        match buildPackageDeps ns ts imps with
        | (deps, ts1) =>
          let a := Action.run m.importPath deps m.main
          (a, (m.importPath, a) :: ts1)

/-- The dependency loop of `buildPackage`. -/
def buildPackageDeps (ns : List String) (ts : Targets) : List GPkg → List Action × Targets
  | [] => ([], ts)
  | p :: ps =>
    match buildPackage ns ts p with
    | (a, ts1) =>
      match buildPackageDeps ns ts1 ps with
      | (as, ts2) => (a :: as, ts2)

end

/-- `buildPackages`: build one action per requested package against a
shared (initially empty) `targets` table; the composed plan runs the
actions in order. -/
def buildPackages (ns : List String) (roots : List GPkg) : List Action × Targets :=
  buildPackageDeps ns [] roots

mutual

/-- The import paths whose Compilation Pipeline (`Compile`) runs, in
order, when an action is invoked. -/
def Action.compiles : Action → List String
  | .upToDate _ => []
  | .run i deps _ => Action.compilesList deps ++ [i]

/-- `Compile` invocations of a list of actions run in order. -/
def Action.compilesList : List Action → List String
  | [] => []
  | a :: as => Action.compiles a ++ Action.compilesList as

end

mutual

/-- The import paths whose `Link` runs, in order, when an action is
invoked. -/
def Action.links : Action → List String
  | .upToDate _ => []
  | .run i deps mn => Action.linksList deps ++ (if mn then [i] else [])

/-- `Link` invocations of a list of actions run in order. -/
def Action.linksList : List Action → List String
  | [] => []
  | a :: as => Action.links a ++ Action.linksList as

end

/-- Library unit `b`, the shared dependency of the C2 scenario. -/
def bS : GPkg := .node { importPath := "b", dir := "/s/b", goFiles := ["b.go"] } []

/-- Entry unit `a` depending on `b`. -/
def aS : GPkg := .node { importPath := "a", dir := "/s/a", goFiles := ["a.go"], main := true } [bS]

/-- Entry unit `c` depending on `b`. -/
def cS : GPkg := .node { importPath := "c", dir := "/s/c", goFiles := ["c.go"], main := true } [bS]

/-- The staleness annotation for the C2 scenario (`b` uncached, so
every unit is stale and `notStale` is empty). -/
def nsS : List String := (computeStale ctx0 statNone [aS, cS] ⟨[], []⟩).notStale

/-- Counterexample to C2 as stated: in the scenario A(entry)->[B],
C(entry)->[B] with B uncached, executing the composed plan runs B's
Compilation Pipeline twice — once from A's action and once more when
C's action re-invokes the shared closure — for a total of 4 `Compile`
invocations, not at most 1 for B and not 3 in total. -/
theorem C2_counterexample :
    List.count "b" (Action.compilesList (buildPackages nsS [aS, cS]).1) = 2 ∧
    (Action.compilesList (buildPackages nsS [aS, cS]).1).length = 4 := by
  decide

/-- C2 amended: the shared unit's BuildAction is constructed and
registered at most once (the `targets` table holds a single entry for
`b`, shared by reference), but executing the composed plan invokes the
shared action once per stale dependent root, so in the scenario the
`Compile` invocations are b, a, b, c (4 in total, `b` twice) and the
`Link` invocations are a, c (2 in total). -/
theorem C2_shared_action_reruns_per_root :
    Action.compilesList (buildPackages nsS [aS, cS]).1 = ["b", "a", "b", "c"] ∧
    Action.linksList (buildPackages nsS [aS, cS]).1 = ["a", "c"] ∧
    (((buildPackages nsS [aS, cS]).2.map Prod.fst).count "b") = 1 := by
  decide

/-- Outcomes of the toolchain and filesystem calls made by a single
`Compile` invocation: `mkdirOk` for the destination-directory creation,
`gcOk` for the compile tool, `asmOk` per low-level source file,
`packOk` for the archive tool and `copyOk` for the installing copy. -/
structure CompileEnv where
  mkdirOk : Bool
  gcOk : Bool
  asmOk : String → Bool
  packOk : Bool
  copyOk : Bool

/-- Errors a `Compile` invocation can surface. -/
inductive CompileErr where
  | noGoFiles (id : String)
  | mkdirFailed
  | gcFailed
  | asmFailed (sfile : String)
  | packFailed
  | copyFailed
deriving DecidableEq

/-- `Package.Compile` of `src/unnamed/part_000`.  Result: the returned
error (`none` = the Go `nil`) and whether the artifact was installed
into the cache (the final `copyfile` ran and succeeded).  Steps: fail
if no Go files were supplied; create the destination directory; run the
compile tool (`gc`) — on `gc` error the source returns `nil`, not the
error, and skips installation; assemble each low-level source, failing
on the first error; archive when more than one object was produced;
install by copying. -/
def CompilePart000 (env : CompileEnv) (pkg : PkgMeta) : Option CompileErr × Bool :=
  if pkg.goFiles.isEmpty then (some (.noGoFiles pkg.importPath), false)
  else if !env.mkdirOk then (some .mkdirFailed, false)
  else if !env.gcOk then (none, false)
  else
    match pkg.sFiles.find? (fun s => !env.asmOk s) with
    | some s => (some (.asmFailed s), false)
    | none =>
      if !pkg.sFiles.isEmpty && !env.packOk then (some .packFailed, false)
      else if !env.copyOk then (some .copyFailed, false)
      else (none, true)

/-- `Package.Compile` of `src/kodos.go`: the destination directory is
created, each low-level source is assembled, and the compile tool runs
with its output written directly to the cache path; any tool error is
returned. -/
def CompileKodosGo (env : CompileEnv) (pkg : PkgMeta) : Option CompileErr × Bool :=
  if !env.mkdirOk then (some .mkdirFailed, false)
  else
    match pkg.sFiles.find? (fun s => !env.asmOk s) with
    | some s => (some (.asmFailed s), false)
    | none =>
      if !env.gcOk then (some .gcFailed, false)
      else (none, true)

/-- An environment in which exactly the compile tool fails. -/
def envGcFail : CompileEnv :=
  { mkdirOk := true, gcOk := false, asmOk := fun _ => true,
    packOk := true, copyOk := true }

/-- C1 (evidence of the code bug): when the compile tool fails for a
package with one Go file, the `Compile` of `src/unnamed/part_000`
returns `nil` — no error, contradicting the claim that the whole
pipeline fails — while installing nothing; the `Compile` of
`src/kodos.go` returns the error, showing the intended behavior. -/
theorem C1_compile_swallows_gc_error :
    CompilePart000 envGcFail pkgA = (none, false) ∧
    CompileKodosGo envGcFail pkgA = (some .gcFailed, false) := by
  decide

/-- Contents of a file in the link model: the empty file created by
`ioutil.TempFile`, the output the link tool writes, or an arbitrary
pre-existing file. -/
inductive FileData where
  | emptyFile
  | linkOutput (id : String)
  | preExisting (tag : Nat)
deriving DecidableEq

/-- A filesystem: paths to file contents (`none` = no file). -/
abbrev FS := String → Option FileData

/-- Write, overwrite or remove one path. -/
def fsSet (fs : FS) (p : String) (v : Option FileData) : FS :=
  fun q => if q = p then v else fs q

/-- Errors a `Link` invocation can surface. -/
inductive LinkErr where
  | tempFailed
  | linkFailed
  | mkdirFailed
  | renameFailed
deriving DecidableEq

/-- Outcomes of the calls made by a single `Link` invocation, plus the
fresh temporary file name `ioutil.TempFile` chooses inside the
destination's directory. -/
structure LinkEnv where
  tmpName : String
  tempOk : Bool
  linkOk : Bool
  mkdirOk : Bool
  renameOk : Bool

/-- `Package.Link` (identical in `src/kodos.go` and
`src/unnamed/part_000`): create a temporary file next to the final
binary path; run the link tool writing to it, removing the temporary
file and failing on a tool error; ensure the destination directory
exists, removing the temporary file and failing on error; finally
rename the temporary file onto the final binary path. -/
def LinkRun (env : LinkEnv) (c : Ctx) (pkg : PkgMeta) (fs : FS) : Option LinkErr × FS :=
  if !env.tempOk then (some .tempFailed, fs)
  else
    let fs1 := fsSet fs env.tmpName (some .emptyFile)
    if !env.linkOk then (some .linkFailed, fsSet fs1 env.tmpName none)
    else
      let fs2 := fsSet fs1 env.tmpName (some (.linkOutput pkg.importPath))
      if !env.mkdirOk then (some .mkdirFailed, fsSet fs2 env.tmpName none)
      else if !env.renameOk then (some .renameFailed, fs2)
      else (none, fsSet (fsSet fs2 env.tmpName none) (Binfile c pkg)
        (some (.linkOutput pkg.importPath)))

/-- C6: if the link tool fails, `Link` returns the error, the
temporary file is deleted and every path — the final binary path in
particular — is exactly as before the call (a pre-existing binary is
untouched; where there was no file there is none).  If the pipeline
succeeds, the fully formed output sits at the final binary path via the
rename, the temporary file is gone, and no other path changed. -/
theorem C6_link_atomic (env : LinkEnv) (c : Ctx) (pkg : PkgMeta) (fs : FS)
    (hfresh : fs env.tmpName = none) (hne : env.tmpName ≠ Binfile c pkg)
    (htmp : env.tempOk = true) :
    (env.linkOk = false →
      (LinkRun env c pkg fs).1 = some LinkErr.linkFailed ∧
      ∀ p, (LinkRun env c pkg fs).2 p = fs p) ∧
    (env.linkOk = true → env.mkdirOk = true → env.renameOk = true →
      (LinkRun env c pkg fs).1 = none ∧
      (LinkRun env c pkg fs).2 (Binfile c pkg) = some (FileData.linkOutput pkg.importPath) ∧
      (LinkRun env c pkg fs).2 env.tmpName = none ∧
      ∀ p, p ≠ Binfile c pkg → p ≠ env.tmpName → (LinkRun env c pkg fs).2 p = fs p) := by
  constructor
  · intro hl
    unfold LinkRun
    simp only [htmp, hl, Bool.not_true, Bool.not_false, Bool.false_eq_true, if_false, if_true]
    refine ⟨trivial, fun p => ?_⟩
    unfold fsSet
    by_cases hp : p = env.tmpName
    · subst hp
      simp [hfresh]
    · simp [hp]
  · intro hl hm hr
    unfold LinkRun
    simp only [htmp, hl, hm, hr, Bool.not_true, Bool.false_eq_true, if_false]
    refine ⟨trivial, ?_, ?_, fun p hpb hpt => ?_⟩
    · unfold fsSet
      simp
    · unfold fsSet
      simp [hne, Ne.symm hne]
    · unfold fsSet
      simp [hpb, hpt]

/-- The empty filesystem. -/
def fs0 : FS := fun _ => none

/-- Entry unit `m` for the link witness. -/
def pkgM : PkgMeta := { importPath := "m", dir := "/s/m", goFiles := ["m.go"], main := true }

/-- Link environment in which only the link tool fails. -/
def envLinkFail : LinkEnv :=
  { tmpName := "/b/.kang-link1", tempOk := true, linkOk := false,
    mkdirOk := true, renameOk := true }

/-- Link environment in which everything succeeds. -/
def envLinkOk : LinkEnv :=
  { tmpName := "/b/.kang-link1", tempOk := true, linkOk := true,
    mkdirOk := true, renameOk := true }

/-- Witness for C6 at concrete inputs: a failed link leaves no file at
the final binary path, while a successful link leaves exactly the
linked output there and no temporary file. -/
theorem C6_link_atomic_witness :
    (LinkRun envLinkFail ctx0 pkgM fs0).2 (Binfile ctx0 pkgM) = none ∧
    (LinkRun envLinkOk ctx0 pkgM fs0).2 (Binfile ctx0 pkgM) =
      some (FileData.linkOutput "m") ∧
    (LinkRun envLinkOk ctx0 pkgM fs0).2 envLinkOk.tmpName = none := by
  refine ⟨?_, ?_, ?_⟩
  · have h := (C6_link_atomic envLinkFail ctx0 pkgM fs0 rfl (by decide) rfl).1 rfl
    rw [h.2 (Binfile ctx0 pkgM)]
    rfl
  · exact ((C6_link_atomic envLinkOk ctx0 pkgM fs0 rfl (by decide) rfl).2 rfl rfl rfl).2.1
  · exact ((C6_link_atomic envLinkOk ctx0 pkgM fs0 rfl (by decide) rfl).2 rfl rfl rfl).2.2.1

/-- A `go/build.Package` descriptor, the input of `transform`. -/
structure Desc where
  importPath : String
  name : String
  dir : String
  goFiles : List String
  sFiles : List String := []
  imports : List String
deriving DecidableEq

/-- The `Package` fields `transform`'s walk fills in from a
descriptor. -/
def Desc.toMeta (d : Desc) : PkgMeta :=
  { importPath := d.importPath, dir := d.dir, goFiles := d.goFiles,
    sFiles := d.sFiles, main := d.name == "main" }

/-- The fatal errors of graph construction (panics in the source).
`fuelExhausted` stands for the unbounded recursion a cyclic input would
cause in Go (a stack overflow), an artifact of the explicit fuel. -/
inductive TErr where
  | fuelExhausted
  | notLoaded (missing : String)
  | presentTwice (id : String)
deriving DecidableEq

/-- The panic messages of the source: `fmt.Sprintln` joins its operands
with single spaces (the first operand of the not-loaded panic already
ends in one) and appends a newline. -/
def TErr.message : TErr → String
  | .fuelExhausted => "goroutine stack exceeds limit"
  | .notLoaded i => "transform: pkg  " ++ i ++ " is not loaded\n"
  | .presentTwice i => i ++ " present twice\n"

/-- The `srcs` map built by `transform`: a later descriptor with the
same import path overwrites an earlier one. -/
def mkSrcs : List Desc → String → Option Desc
  | [], _ => none
  | d :: ds, i =>
    match mkSrcs ds i with
    | some d2 => some d2
    | none => if i = d.importPath then some d else none

mutual

/-- The recursive `walk` closure of `transform` (from
`src/unnamed/part_000`): return the memoized node for an already-seen
identity; otherwise resolve every import through `srcs` — panicking
when one is not loaded — walk each resolved descriptor, then
materialize this node and register it.  `fuel` bounds the recursion
depth; it decreases on every recursive call and a faithful run is one
with enough fuel to never exhaust it. -/
def twWalk (srcs : String → Option Desc) : Nat → Desc → List (String × GPkg) →
    Except TErr (GPkg × List (String × GPkg))
  | 0, _, _ => .error .fuelExhausted
  | fuel + 1, src, seen =>
    match seen.lookup src.importPath with
    | some pkg => .ok (pkg, seen)
    | none =>
      match twWalkImports srcs fuel src.imports seen with
      | .error e => .error e
      | .ok (deps, seen1) =>
        .ok (GPkg.node src.toMeta deps,
          (src.importPath, GPkg.node src.toMeta deps) :: seen1)

/-- The import-resolution loop of `walk`. -/
def twWalkImports (srcs : String → Option Desc) : Nat → List String →
    List (String × GPkg) → Except TErr (List GPkg × List (String × GPkg))
  | 0, _, _ => .error .fuelExhausted
  | _ + 1, [], seen => .ok ([], seen)
  | fuel + 1, i :: is, seen =>
    match srcs i with
    | none => .error (.notLoaded i)
    | some d =>
      match twWalk srcs fuel d seen with
      | .error e => .error e
      | .ok (pkg, seen1) =>
        match twWalkImports srcs fuel is seen1 with
        | .error e => .error e
        | .ok (ps, seen2) => .ok (pkg :: ps, seen2)

end

/-- The root loop of `transform`: walk each supplied descriptor against
the shared memo table, collecting the returned nodes in order. -/
def twWalkRoots (srcs : String → Option Desc) (fuel : Nat) :
    List Desc → List (String × GPkg) →
    Except TErr (List GPkg × List (String × GPkg))
  | [], seen => .ok ([], seen)
  | d :: ds, seen =>
    match twWalk srcs fuel d seen with
    | .error e => .error e
    | .ok (pkg, seen1) =>
      match twWalkRoots srcs fuel ds seen1 with
      | .error e => .error e
      | .ok (ps, seen2) => .ok (pkg :: ps, seen2)

/-- The final integrity check of `transform`: Go walks the returned
root pointers with a `map[*Package]bool` and panics on the first
pointer met twice.  The memo table materializes exactly one node
per import path, so pointer equality of returned roots coincides with
identity equality, which is what this model checks. -/
def dupCheck : List GPkg → List String → Option String
  | [], _ => none
  | p :: ps, chk =>
    if GPkg.ident p ∈ chk then some (GPkg.ident p)
    else dupCheck ps (GPkg.ident p :: chk)

/-- `transform` of `src/unnamed/part_000`: build the `srcs` map, walk
every descriptor, then run the duplicate check; any panic is an
`error`, and no graph is returned then. -/
def transform (fuel : Nat) (v : List Desc) : Except TErr (List GPkg) :=
  match twWalkRoots (mkSrcs v) fuel v [] with
  | .error e => .error e
  | .ok (pkgs, _) =>
    match dupCheck pkgs [] with
    | some i => .error (.presentTwice i)
    | none => .ok pkgs

/-- A successful `srcs` lookup returns a supplied descriptor
whose import path is the key. -/
theorem mkSrcs_some (v : List Desc) (i : String) (d : Desc)
    (h : mkSrcs v i = some d) : d.importPath = i ∧ d ∈ v := by
  induction v with
  | nil => cases h
  | cons e es ih =>
    rw [mkSrcs] at h
    rcases he : mkSrcs es i with _ | d2
    · rw [he] at h
      by_cases hi : i = e.importPath
      · rw [if_pos hi] at h
        cases h
        exact ⟨hi.symm, List.mem_cons_self _ _⟩
      · rw [if_neg hi] at h
        cases h
    · rw [he] at h
      cases h
      have := ih he
      exact ⟨this.1, List.mem_cons_of_mem _ this.2⟩

/-- A key naming no supplied descriptor looks up to `none`. -/
theorem mkSrcs_not_mem (v : List Desc) (i : String)
    (h : i ∉ v.map Desc.importPath) : mkSrcs v i = none := by
  induction v with
  | nil => rfl
  | cons e es ih =>
    rw [mkSrcs]
    have h1 : i ∉ es.map Desc.importPath := fun hh =>
      h (List.mem_cons_of_mem _ hh)
    have h2 : i ≠ e.importPath := fun hh =>
      h (by rw [List.map_cons]; exact hh ▸ List.mem_cons_self _ _)
    rw [ih h1, if_neg h2]

/-- With duplicate-free identities, each supplied descriptor looks
itself up. -/
theorem mkSrcs_self (v : List Desc) (d : Desc) (hd : d ∈ v)
    (hnodup : (v.map Desc.importPath).Nodup) : mkSrcs v d.importPath = some d := by
  induction v with
  | nil => cases hd
  | cons e es ih =>
    rw [List.map_cons, List.nodup_cons] at hnodup
    rw [mkSrcs]
    rcases List.mem_cons.mp hd with rfl | hd2
    · rw [mkSrcs_not_mem es d.importPath hnodup.1, if_pos rfl]
    · rw [ih hd2 hnodup.2]

/-- A successful association-list lookup found a stored pair. -/
theorem lookup_mem (k : String) (l : List (String × GPkg)) (p : GPkg)
    (h : l.lookup k = some p) : (k, p) ∈ l := by
  induction l with
  | nil => cases h
  | cons kv rest ih =>
    rw [List.lookup] at h
    rcases hk : k == kv.1 with _ | _
    · rw [hk] at h
      exact List.mem_cons_of_mem _ (ih h)
    · rw [hk] at h
      cases h
      have : k = kv.1 := eq_of_beq hk
      rw [this]
      exact List.mem_cons_self _ _

/-- Every memo-table entry stores a node whose identity is its key. -/
def SeenIds (seen : List (String × GPkg)) : Prop :=
  ∀ kp ∈ seen, GPkg.ident kp.2 = kp.1

mutual

/-- A successful walk returns a node named after the walked descriptor
and preserves the key discipline of the memo table. -/
theorem twWalk_ident (srcs : String → Option Desc) (fuel : Nat) (src : Desc)
    (seen : List (String × GPkg)) (pkg : GPkg) (seen1 : List (String × GPkg))
    (hs : SeenIds seen) (h : twWalk srcs fuel src seen = .ok (pkg, seen1)) :
    GPkg.ident pkg = src.importPath ∧ SeenIds seen1 := by
  cases fuel with
  | zero => cases h
  | succ fuel =>
    rw [twWalk] at h
    rcases hlk : seen.lookup src.importPath with _ | pkg0
    · rw [hlk] at h
      rcases hi : twWalkImports srcs fuel src.imports seen with e | ⟨deps, s1⟩
      · rw [hi] at h
        cases h
      · rw [hi] at h
        cases h
        refine ⟨rfl, ?_⟩
        intro kp hkp
        rcases List.mem_cons.mp hkp with rfl | hkp2
        · rfl
        · exact twWalkImports_seenIds srcs fuel src.imports seen deps s1 hs hi kp hkp2
    · rw [hlk] at h
      cases h
      exact ⟨hs _ (lookup_mem _ _ _ hlk), hs⟩

/-- The import loop preserves the key discipline of the memo table. -/
theorem twWalkImports_seenIds (srcs : String → Option Desc) (fuel : Nat)
    (l : List String) (seen : List (String × GPkg)) (ps : List GPkg)
    (seen1 : List (String × GPkg)) (hs : SeenIds seen)
    (h : twWalkImports srcs fuel l seen = .ok (ps, seen1)) : SeenIds seen1 := by
  cases fuel with
  | zero => cases h
  | succ fuel =>
    cases l with
    | nil =>
      rw [twWalkImports] at h
      cases h
      exact hs
    | cons i is =>
      rw [twWalkImports] at h
      rcases hd : srcs i with _ | d
      · rw [hd] at h
        cases h
      · rw [hd] at h
        dsimp only at h
        rcases hw : twWalk srcs fuel d seen with e | ⟨pkg, s1⟩
        · rw [hw] at h
          cases h
        · rw [hw] at h
          dsimp only at h
          rcases hr : twWalkImports srcs fuel is s1 with e | ⟨ps2, s2⟩
          · rw [hr] at h
            cases h
          · rw [hr] at h
            cases h
            exact twWalkImports_seenIds srcs fuel is s1 ps2 seen1 ((twWalk_ident srcs fuel d seen pkg s1 hs hw).2) hr

end

/-- A successful root walk returns one node per supplied descriptor,
named after it. -/
theorem twWalkRoots_idents (srcs : String → Option Desc) (fuel : Nat)
    (v : List Desc) (seen : List (String × GPkg)) (pkgs : List GPkg)
    (seen2 : List (String × GPkg)) (hs : SeenIds seen)
    (h : twWalkRoots srcs fuel v seen = .ok (pkgs, seen2)) :
    pkgs.map GPkg.ident = v.map Desc.importPath ∧ SeenIds seen2 := by
  induction v generalizing seen pkgs with
  | nil =>
    rw [twWalkRoots] at h
    cases h
    exact ⟨rfl, hs⟩
  | cons d ds ih =>
    rw [twWalkRoots] at h
    rcases hw : twWalk srcs fuel d seen with e | ⟨pkg, s1⟩
    · rw [hw] at h
      cases h
    · rw [hw] at h
      dsimp only at h
      rcases hr : twWalkRoots srcs fuel ds s1 with e | ⟨ps, s2⟩
      · rw [hr] at h
        cases h
      · rw [hr] at h
        cases h
        have h1 := twWalk_ident srcs fuel d seen pkg s1 hs hw
        have h2 := ih s1 ps h1.2 hr
        rw [List.map_cons, List.map_cons, h1.1, h2.1]
        exact ⟨rfl, h2.2⟩

/-- Specification of the duplicate check: `none` means the identities
(together with the accumulator) are duplicate-free, and `some i` names
an identity that occurs in the list and either was accumulated already
or occurs at least twice. -/
theorem dupCheck_spec (l : List GPkg) (chk : List String) :
    (dupCheck l chk = none →
      (l.map GPkg.ident).Nodup ∧ ∀ x ∈ chk, x ∉ l.map GPkg.ident) ∧
    (∀ i, dupCheck l chk = some i →
      i ∈ l.map GPkg.ident ∧ (i ∈ chk ∨ 2 ≤ (l.map GPkg.ident).count i)) := by
  induction l generalizing chk with
  | nil =>
    refine ⟨fun _ => ⟨List.nodup_nil, by simp⟩, fun i h => ?_⟩
    cases h
  | cons p ps ih =>
    constructor
    · intro h
      rw [dupCheck] at h
      by_cases hp : GPkg.ident p ∈ chk
      · rw [if_pos hp] at h
        cases h
      · rw [if_neg hp] at h
        have h1 := (ih (GPkg.ident p :: chk)).1 h
        rw [List.map_cons, List.nodup_cons]
        refine ⟨⟨h1.2 _ (List.mem_cons_self _ _), h1.1⟩, fun x hx => ?_⟩
        intro hmem
        rcases List.mem_cons.mp hmem with heq | hmem2
        · exact hp (heq ▸ hx)
        · exact h1.2 x (List.mem_cons_of_mem _ hx) hmem2
    · intro i h
      rw [dupCheck] at h
      by_cases hp : GPkg.ident p ∈ chk
      · rw [if_pos hp] at h
        cases h
        exact ⟨List.mem_cons_self _ _, Or.inl hp⟩
      · rw [if_neg hp] at h
        have h1 := (ih (GPkg.ident p :: chk)).2 i h
        refine ⟨List.mem_cons_of_mem _ h1.1, ?_⟩
        rcases h1.2 with hin | hcount
        · rcases List.mem_cons.mp hin with heq | hin2
          · right
            rw [List.map_cons, heq, List.count_cons_self]
            have hpos : 0 < (ps.map GPkg.ident).count i := List.count_pos_iff.mpr h1.1
            rw [heq] at hpos
            omega
          · exact Or.inl hin2
        · right
          rw [List.map_cons]
          exact le_trans hcount ((List.sublist_cons_self _ _).count_le _)

/-- C5: if the walk phase succeeds and the supplied collection contains
two descriptors with the same identity, `transform` fails with the
present-twice integrity panic naming a duplicated identity, and returns
no graph. -/
theorem C5_duplicate_identity_fails (fuel : Nat) (v : List Desc)
    (pkgs : List GPkg) (seen : List (String × GPkg))
    (hwalk : twWalkRoots (mkSrcs v) fuel v [] = .ok (pkgs, seen))
    (hdup : ¬(v.map Desc.importPath).Nodup) :
    ∃ i, transform fuel v = .error (.presentTwice i) ∧
      2 ≤ (v.map Desc.importPath).count i := by
  have hids := twWalkRoots_idents (mkSrcs v) fuel v [] pkgs seen
    (fun kp hkp => absurd hkp (List.not_mem_nil _)) hwalk
  have hdup2 : ¬(pkgs.map GPkg.ident).Nodup := by
    rw [hids.1]
    exact hdup
  unfold transform
  rw [hwalk]
  dsimp only
  rcases hd : dupCheck pkgs [] with _ | i
  · exact absurd ((dupCheck_spec pkgs []).1 hd).1 hdup2
  · have hsp := (dupCheck_spec pkgs []).2 i hd
    refine ⟨i, rfl, ?_⟩
    rcases hsp.2 with hmem | hcount
    · cases hmem
    · rw [hids.1] at hcount
      exact hcount

/-- First duplicate descriptor of identity `x`. -/
def dx1 : Desc :=
  { importPath := "x", name := "main", dir := "/s/x1", goFiles := ["x1.go"], imports := [] }

/-- Second, distinct descriptor with the same identity `x`. -/
def dx2 : Desc :=
  { importPath := "x", name := "main", dir := "/s/x2", goFiles := ["x2.go"], imports := [] }

/-- Witness for C5 at a concrete input: two descriptors named `x`. -/
theorem C5_duplicate_identity_fails_witness :
    ∃ i, transform 4 [dx1, dx2] = .error (.presentTwice i) ∧
      2 ≤ (([dx1, dx2]).map Desc.importPath).count i :=
  C5_duplicate_identity_fails 4 [dx1, dx2]
    [GPkg.node dx1.toMeta [], GPkg.node dx1.toMeta []]
    [("x", GPkg.node dx1.toMeta [])] rfl (by decide)

/-- Whether `needle` occurs at the start of `hay`. -/
def leadsList : List Char → List Char → Bool
  | [], _ => true
  | _ :: _, [] => false
  | a :: as, b :: bs => a == b && leadsList as bs

/-- Whether `needle` occurs contiguously anywhere inside `hay`. -/
def occursIn (needle hay : List Char) : Bool :=
  match hay with
  | [] => needle.isEmpty
  | b :: bs => leadsList needle (b :: bs) || occursIn needle bs

/-- A unit `qq` requiring a dependency `mm` for which no descriptor is
supplied. -/
def dq : Desc :=
  { importPath := "qq", name := "lib", dir := "/s/qq", goFiles := ["q.go"], imports := ["mm"] }

/-- Counterexample to C7 as stated: resolving the missing import `mm`
of unit `qq` panics with a diagnostic that names the missing identity
`mm` but does not name the requiring unit `qq` anywhere in its text. -/
theorem C7_counterexample :
    transform 4 [dq] = .error (.notLoaded "mm") ∧
    occursIn "mm".data (TErr.message (.notLoaded "mm")).data = true ∧
    occursIn "qq".data (TErr.message (.notLoaded "mm")).data = false := by
  refine ⟨rfl, ?_, ?_⟩ <;> decide

/-- A key whose identity is supplied looks up to a descriptor. -/
theorem mkSrcs_mem (v : List Desc) (i : String)
    (h : i ∈ v.map Desc.importPath) : mkSrcs v i ≠ none := by
  induction v with
  | nil => cases h
  | cons e es ih =>
    rw [mkSrcs]
    rcases he : mkSrcs es i with _ | d
    · rw [List.map_cons] at h
      rcases List.mem_cons.mp h with heq | hmem
      · rw [if_pos heq]
        exact fun hh => Option.noConfusion hh
      · exact absurd he (ih hmem)
    · exact fun hh => Option.noConfusion hh

/-- Some loaded descriptor requires `m`. -/
def InSrcs (srcs : String → Option Desc) (m : String) : Prop :=
  ∃ i d, srcs i = some d ∧ m ∈ d.imports

mutual

/-- Classification of walk failures: exhaustion aside, a walk fails
only with a not-loaded panic naming an identity that looks up to
nothing and is required by the walked descriptor or by a loaded one. -/
theorem twWalk_err (srcs : String → Option Desc) (fuel : Nat) (src : Desc)
    (seen : List (String × GPkg)) (e : TErr)
    (h : twWalk srcs fuel src seen = .error e) :
    e = .fuelExhausted ∨ ∃ m, e = .notLoaded m ∧ srcs m = none ∧
      (m ∈ src.imports ∨ InSrcs srcs m) := by
  cases fuel with
  | zero =>
    rw [twWalk] at h
    exact Or.inl (Except.error.inj h).symm
  | succ fuel =>
    rw [twWalk] at h
    rcases hlk : seen.lookup src.importPath with _ | pkg0
    · rw [hlk] at h
      dsimp only at h
      rcases hi : twWalkImports srcs fuel src.imports seen with e2 | ⟨deps, s1⟩
      · rw [hi] at h
        cases h
        exact twWalkImports_err srcs fuel src.imports seen _ hi
      · rw [hi] at h
        cases h
    · rw [hlk] at h
      cases h

/-- Classification of import-loop failures. -/
theorem twWalkImports_err (srcs : String → Option Desc) (fuel : Nat)
    (l : List String) (seen : List (String × GPkg)) (e : TErr)
    (h : twWalkImports srcs fuel l seen = .error e) :
    e = .fuelExhausted ∨ ∃ m, e = .notLoaded m ∧ srcs m = none ∧
      (m ∈ l ∨ InSrcs srcs m) := by
  cases fuel with
  | zero =>
    rw [twWalkImports] at h
    exact Or.inl (Except.error.inj h).symm
  | succ fuel =>
    cases l with
    | nil =>
      rw [twWalkImports] at h
      cases h
    | cons i is =>
      rw [twWalkImports] at h
      rcases hd : srcs i with _ | d
      · rw [hd] at h
        cases h
        exact Or.inr ⟨i, rfl, hd, Or.inl (List.mem_cons_self _ _)⟩
      · rw [hd] at h
        dsimp only at h
        rcases hw : twWalk srcs fuel d seen with e2 | ⟨pkg, s1⟩
        · rw [hw] at h
          cases h
          rcases twWalk_err srcs fuel d seen _ hw with hf | ⟨m, rfl, hm1, hm2⟩
          · exact Or.inl hf
          · refine Or.inr ⟨m, rfl, hm1, Or.inr ?_⟩
            rcases hm2 with hmd | hins
            · exact ⟨i, d, hd, hmd⟩
            · exact hins
        · rw [hw] at h
          dsimp only at h
          rcases hr : twWalkImports srcs fuel is s1 with e2 | ⟨ps, s2⟩
          · rw [hr] at h
            cases h
            rcases twWalkImports_err srcs fuel is s1 _ hr with hf | ⟨m, rfl, hm1, hm2⟩
            · exact Or.inl hf
            · refine Or.inr ⟨m, rfl, hm1, ?_⟩
              rcases hm2 with hml | hins
              · exact Or.inl (List.mem_cons_of_mem _ hml)
              · exact Or.inr hins
          · rw [hr] at h
            cases h

end

/-- Classification of root-walk failures. -/
theorem twWalkRoots_err (srcs : String → Option Desc) (fuel : Nat)
    (v : List Desc) (seen : List (String × GPkg)) (e : TErr)
    (h : twWalkRoots srcs fuel v seen = .error e) :
    e = .fuelExhausted ∨ ∃ m, e = .notLoaded m ∧ srcs m = none ∧
      ((∃ d ∈ v, m ∈ d.imports) ∨ InSrcs srcs m) := by
  induction v generalizing seen with
  | nil =>
    rw [twWalkRoots] at h
    cases h
  | cons d ds ih =>
    rw [twWalkRoots] at h
    rcases hw : twWalk srcs fuel d seen with e2 | ⟨pkg, s1⟩
    · rw [hw] at h
      cases h
      rcases twWalk_err srcs fuel d seen _ hw with hf | ⟨m, rfl, hm1, hm2⟩
      · exact Or.inl hf
      · refine Or.inr ⟨m, rfl, hm1, ?_⟩
        rcases hm2 with hmd | hins
        · exact Or.inl ⟨d, List.mem_cons_self _ _, hmd⟩
        · exact Or.inr hins
    · rw [hw] at h
      dsimp only at h
      rcases hr : twWalkRoots srcs fuel ds s1 with e2 | ⟨ps, s2⟩
      · rw [hr] at h
        cases h
        rcases ih s1 hr with hf | ⟨m, rfl, hm1, hm2⟩
        · exact Or.inl hf
        · refine Or.inr ⟨m, rfl, hm1, ?_⟩
          rcases hm2 with ⟨d2, hd2, hmd⟩ | hins
          · exact Or.inl ⟨d2, List.mem_cons_of_mem _ hd2, hmd⟩
          · exact Or.inr hins
      · rw [hr] at h
        cases h

/-- Every memo-table entry corresponds to a loaded descriptor all of
whose imports are loaded. -/
def SeenResolved (srcs : String → Option Desc) (seen : List (String × GPkg)) : Prop :=
  ∀ kp ∈ seen, ∃ d, srcs kp.1 = some d ∧ ∀ i ∈ d.imports, srcs i ≠ none

mutual

/-- A successful walk of a loaded descriptor keeps every memo entry
resolved, only grows the table, and records the walked identity. -/
theorem twWalk_resolved (srcs : String → Option Desc)
    (hsrcs : ∀ i d, srcs i = some d → d.importPath = i)
    (fuel : Nat) (src : Desc) (seen : List (String × GPkg)) (pkg : GPkg)
    (seen1 : List (String × GPkg))
    (hself : srcs src.importPath = some src)
    (hg : SeenResolved srcs seen)
    (h : twWalk srcs fuel src seen = .ok (pkg, seen1)) :
    SeenResolved srcs seen1 ∧ seen ⊆ seen1 ∧
      src.importPath ∈ seen1.map Prod.fst := by
  cases fuel with
  | zero => cases h
  | succ fuel =>
    rw [twWalk] at h
    rcases hlk : seen.lookup src.importPath with _ | pkg0
    · rw [hlk] at h
      dsimp only at h
      rcases hi : twWalkImports srcs fuel src.imports seen with e2 | ⟨deps, s1⟩
      · rw [hi] at h
        cases h
      · rw [hi] at h
        cases h
        have hrec := twWalkImports_resolved srcs hsrcs fuel src.imports seen deps s1 hg hi
        refine ⟨?_, ?_, ?_⟩
        · intro kp hkp
          rcases List.mem_cons.mp hkp with rfl | hkp2
          · exact ⟨src, hself, hrec.2.2⟩
          · exact hrec.1 kp hkp2
        · exact hrec.2.1.trans (List.subset_cons_self _ _)
        · rw [List.map_cons]
          exact List.mem_cons_self _ _
    · rw [hlk] at h
      cases h
      refine ⟨hg, List.Subset.refl _, ?_⟩
      exact List.mem_map.mpr ⟨_, lookup_mem _ _ _ hlk, rfl⟩

/-- The import loop keeps memo entries resolved, grows the table, and
witnesses that every listed import is loaded. -/
theorem twWalkImports_resolved (srcs : String → Option Desc)
    (hsrcs : ∀ i d, srcs i = some d → d.importPath = i)
    (fuel : Nat) (l : List String) (seen : List (String × GPkg))
    (ps : List GPkg) (seen1 : List (String × GPkg))
    (hg : SeenResolved srcs seen)
    (h : twWalkImports srcs fuel l seen = .ok (ps, seen1)) :
    SeenResolved srcs seen1 ∧ seen ⊆ seen1 ∧ ∀ i ∈ l, srcs i ≠ none := by
  cases fuel with
  | zero => cases h
  | succ fuel =>
    cases l with
    | nil =>
      rw [twWalkImports] at h
      cases h
      exact ⟨hg, List.Subset.refl _, fun i hi => absurd hi (List.not_mem_nil _)⟩
    | cons i is =>
      rw [twWalkImports] at h
      rcases hd : srcs i with _ | d
      · rw [hd] at h
        cases h
      · rw [hd] at h
        dsimp only at h
        rcases hw : twWalk srcs fuel d seen with e2 | ⟨pkg, s1⟩
        · rw [hw] at h
          cases h
        · rw [hw] at h
          dsimp only at h
          rcases hr : twWalkImports srcs fuel is s1 with e2 | ⟨ps2, s2⟩
          · rw [hr] at h
            cases h
          · rw [hr] at h
            cases h
            have hself2 : srcs d.importPath = some d := by
              rw [hsrcs i d hd]
              exact hd
            have h1 := twWalk_resolved srcs hsrcs fuel d seen pkg s1 hself2 hg hw
            have h2 := twWalkImports_resolved srcs hsrcs fuel is s1 ps2 seen1 h1.1 hr
            refine ⟨h2.1, h1.2.1.trans h2.2.1, fun i2 hi2 => ?_⟩
            rcases List.mem_cons.mp hi2 with rfl | hi3
            · rw [hd]
              exact fun hh => Option.noConfusion hh
            · exact h2.2.2 i2 hi3

end

/-- The root loop keeps memo entries resolved and records every walked
root's identity. -/
theorem twWalkRoots_resolved (srcs : String → Option Desc)
    (hsrcs : ∀ i d, srcs i = some d → d.importPath = i)
    (fuel : Nat) (v : List Desc) (seen : List (String × GPkg))
    (pkgs : List GPkg) (seen2 : List (String × GPkg))
    (hall : ∀ d ∈ v, srcs d.importPath = some d)
    (hg : SeenResolved srcs seen)
    (h : twWalkRoots srcs fuel v seen = .ok (pkgs, seen2)) :
    SeenResolved srcs seen2 ∧ seen ⊆ seen2 ∧
      ∀ d ∈ v, d.importPath ∈ seen2.map Prod.fst := by
  induction v generalizing seen pkgs with
  | nil =>
    rw [twWalkRoots] at h
    cases h
    exact ⟨hg, List.Subset.refl _, fun d hd => absurd hd (List.not_mem_nil _)⟩
  | cons d ds ih =>
    rw [twWalkRoots] at h
    rcases hw : twWalk srcs fuel d seen with e2 | ⟨pkg, s1⟩
    · rw [hw] at h
      cases h
    · rw [hw] at h
      dsimp only at h
      rcases hr : twWalkRoots srcs fuel ds s1 with e2 | ⟨ps, s2⟩
      · rw [hr] at h
        cases h
      · rw [hr] at h
        cases h
        have h1 := twWalk_resolved srcs hsrcs fuel d seen pkg s1
          (hall d (List.mem_cons_self _ _)) hg hw
        have h2 := ih s1 ps (fun d2 hd2 => hall d2 (List.mem_cons_of_mem _ hd2)) h1.1 hr
        refine ⟨h2.1, h1.2.1.trans h2.2.1, fun d2 hd2 => ?_⟩
        rcases List.mem_cons.mp hd2 with rfl | hd3
        · rcases List.mem_map.mp h1.2.2 with ⟨kp, hkp, hkpeq⟩
          exact List.mem_map.mpr ⟨kp, h2.2.1 hkp, hkpeq⟩
        · exact h2.2.2 d2 hd3

/-- C7 amended: when the supplied identities are duplicate-free and the
walk does not run out of fuel, a collection in which some unit's import
names no descriptor makes `transform` fail with the not-loaded panic;
the diagnostic names a missing identity — one that some supplied unit
requires but that no descriptor provides — but not the requiring unit,
and no graph is returned. -/
theorem C7_missing_import_fails (fuel : Nat) (v : List Desc)
    (hnodup : (v.map Desc.importPath).Nodup)
    (hnofuel : transform fuel v ≠ .error .fuelExhausted)
    (hmiss : ∃ d ∈ v, ∃ i ∈ d.imports, i ∉ v.map Desc.importPath) :
    ∃ m, transform fuel v = .error (.notLoaded m) ∧
      m ∉ v.map Desc.importPath ∧ ∃ d ∈ v, m ∈ d.imports := by
  rcases hmiss with ⟨d0, hd0, i0, hi0, hmem0⟩
  have hsrcs : ∀ i d, mkSrcs v i = some d → d.importPath = i :=
    fun i d h => (mkSrcs_some v i d h).1
  rcases hr : twWalkRoots (mkSrcs v) fuel v [] with e | ⟨pkgs, seen2⟩
  · rcases twWalkRoots_err (mkSrcs v) fuel v [] e hr with rfl | ⟨m, rfl, hm1, hm2⟩
    · exfalso
      apply hnofuel
      unfold transform
      rw [hr]
    · refine ⟨m, ?_, ?_, ?_⟩
      · unfold transform
        rw [hr]
      · exact fun hmm => mkSrcs_mem v m hmm hm1
      · rcases hm2 with hreq | ⟨i, d, hid, hmd⟩
        · exact hreq
        · exact ⟨d, (mkSrcs_some v i d hid).2, hmd⟩
  · exfalso
    have hall : ∀ d ∈ v, mkSrcs v d.importPath = some d :=
      fun d hd => mkSrcs_self v d hd hnodup
    have hres := twWalkRoots_resolved (mkSrcs v) hsrcs fuel v [] pkgs seen2 hall
      (fun kp hkp => absurd hkp (List.not_mem_nil _)) hr
    rcases List.mem_map.mp (hres.2.2 d0 hd0) with ⟨kp, hkp, hkpeq⟩
    rcases hres.1 kp hkp with ⟨d2, hd2some, hd2res⟩
    rw [hkpeq, hall d0 hd0] at hd2some
    cases hd2some
    exact hd2res i0 hi0 (mkSrcs_not_mem v i0 hmem0)

/-- Witness for the amended C7 at a concrete input: unit `qq` requires
the unsupplied identity `mm`. -/
theorem C7_missing_import_fails_witness :
    ∃ m, transform 4 [dq] = .error (.notLoaded m) ∧
      m ∉ [dq].map Desc.importPath ∧ ∃ d ∈ [dq], m ∈ d.imports :=
  C7_missing_import_fails 4 [dq] (by decide)
    (fun h => TErr.noConfusion (Except.error.inj h))
    ⟨dq, List.mem_cons_self _ _, "mm", by decide, by decide⟩

end Kodos
